import Mathlib

/-!
Verification model of the session-log parsing and normalization engine of
the CodePilot repository (src/lib/claude-session-parser.ts).

The TypeScript source is shallowly embedded.  Filesystem state is explicit
data: a tree of project directories and session files, where each fallible
filesystem call carries its outcome.  JSON decoding of one line is modelled
by its result: a malformed line (one on which JSON.parse throws) is `none`,
a decoded line is `some` of a typed journal entry carrying exactly the
fields this subsystem reads.  Functions that can let a JavaScript exception
escape to the caller return `Except Unit`.  The wall-clock value that
new Date().toISOString() would produce is threaded as an explicit `now`
parameter.
-/

namespace CodePilot

/-! ## JavaScript-semantics helpers -/

/-- Truthy-or-default on an optional string: models the JavaScript
expression x || d where x : string | undefined (undefined and "" are
both falsy). -/
def jsOr (x : Option String) (d : String) : String :=
  match x with
  | some s => if s = "" then d else s
  | none => d

/-- Models JavaScript s.slice(0, n), measured in characters. -/
def jsSlice (s : String) (n : Nat) : String :=
  ⟨s.data.take n⟩

/-- Whitespace test for the trim model. -/
def isWsChar (c : Char) : Bool :=
  c = ' ' || c = '\t' || c = '\n' || c = '\r'

/-- Models JavaScript s.trim(): strip leading and trailing whitespace. -/
def jsTrim (s : String) : String :=
  ⟨((s.data.dropWhile isWsChar).reverse.dropWhile isWsChar).reverse⟩

/-- Pattern-prefix test on character lists (first argument is the pattern). -/
def startsWithL : List Char → List Char → Bool
  | [], _ => true
  | _ :: _, [] => false
  | p :: ps, c :: cs => p = c && startsWithL ps cs

/-- Models JavaScript s.startsWith(pat). -/
def strStartsWith (s pat : String) : Bool :=
  startsWithL pat.data s.data

/-- Models JavaScript s.endsWith(pat). -/
def strEndsWith (s pat : String) : Bool :=
  decide (pat.data.length ≤ s.data.length) &&
    decide (s.data.drop (s.data.length - pat.data.length) = pat.data)

/-- Index of the first occurrence of pat in a character list, if any. -/
def firstOccL (pat : List Char) : List Char → Option Nat
  | [] => if startsWithL pat [] then some 0 else none
  | c :: cs =>
    if startsWithL pat (c :: cs) then some 0
    else (firstOccL pat cs).map (· + 1)

/-- Removes the first occurrence of pat from a character list; models
JavaScript String.prototype.replace with a string pattern and an empty
replacement (which replaces only the first occurrence). -/
def replaceFirstL (pat : List Char) : List Char → List Char
  | [] => []
  | c :: cs =>
    if startsWithL pat (c :: cs) then (c :: cs).drop pat.length
    else c :: replaceFirstL pat cs

/-- Models JavaScript s.replace(pat, '') with a string pattern. -/
def replaceFirst (s pat : String) : String :=
  ⟨replaceFirstL pat.data s.data⟩

/-- Lexicographic comparison on character lists: true iff a ≤ b. -/
def leCharsB : List Char → List Char → Bool
  | [], _ => true
  | _ :: _, [] => false
  | a :: xs, b :: ys => if a = b then leCharsB xs ys else decide (a < b)

/-- Boolean lexicographic order on strings; used to model the sort
comparator new Date(iso).getTime(), which is monotone with lexicographic
order on equally formatted ISO-8601 strings. -/
def strLeB (a b : String) : Bool :=
  leCharsB a.data b.data

/-- Models Node's path.basename (a path-library helper, not part of the
repository's own sources): the final path component, ignoring trailing
separators. -/
def basename (p : String) : String :=
  ⟨((p.data.reverse.dropWhile (fun c => c = '/')).takeWhile (fun c => c ≠ '/')).reverse⟩

/-! ## Data model -/

/-- Result of fs.statSync: size plus birth/modify times, the latter already
converted to ISO strings as the source does via toISOString(). -/
structure Stat where
  size : Nat
  birthtimeISO : String
  mtimeISO : String
deriving DecidableEq

/-- Decoded value of one content block of a journal entry (the ContentBlock
interface of the source).  bcontent models the field
content?: string | ContentBlock[]; a JSON value of any other shape is
modelled as absent, which the source's normalization treats identically. -/
inductive ContentBlock : Type where
  | mk
    (btype : String)
    (text : Option String)
    (id : Option String)
    (name : Option String)
    (input : Option String)
    (tool_use_id : Option String)
    (bcontent : Option (String ⊕ List ContentBlock))
    (is_error : Option Bool)

def ContentBlock.btype : ContentBlock → String
  | .mk t _ _ _ _ _ _ _ => t

def ContentBlock.text : ContentBlock → Option String
  | .mk _ x _ _ _ _ _ _ => x

def ContentBlock.id : ContentBlock → Option String
  | .mk _ _ x _ _ _ _ _ => x

def ContentBlock.name : ContentBlock → Option String
  | .mk _ _ _ x _ _ _ _ => x

def ContentBlock.input : ContentBlock → Option String
  | .mk _ _ _ _ x _ _ _ => x

def ContentBlock.tool_use_id : ContentBlock → Option String
  | .mk _ _ _ _ _ x _ _ => x

def ContentBlock.bcontent : ContentBlock → Option (String ⊕ List ContentBlock)
  | .mk _ _ _ _ _ _ x _ => x

def ContentBlock.is_error : ContentBlock → Option Bool
  | .mk _ _ _ _ _ _ _ x => x

/-- Value of message.content in a decoded line: a plain string, an ordered
fragment list, or a JSON value of any other shape. -/
inductive MsgContent : Type where
  | str (s : String)
  | arr (blocks : List ContentBlock)
  | other

/-- The message field of a decoded line (only its content is ever read). -/
structure MessageField where
  content : Option MsgContent

/-- One decoded JSONL line (the JournalEntry shape of the source): the type
discriminator plus the fields this subsystem reads; fields that can be
absent in the JSON are Options. -/
structure JournalEntry where
  etype : String
  timestamp : Option String
  sessionId : Option String
  uuid : Option String
  cwd : Option String
  gitBranch : Option String
  version : Option String
  message : Option MessageField

/-- Normalized output content block (the MessageContentBlock of @/types,
reconstructed from its use sites and the spec's ContentBlock union). -/
inductive MessageContentBlock : Type where
  | text (text : String)
  | tool_use (id : String) (name : String) (input : Option String)
  | tool_result (tool_use_id : String) (content : String) (is_error : Bool)
deriving DecidableEq

/-- ParsedMessage of the source. -/
structure ParsedMessage where
  role : String
  content : String
  contentBlocks : List MessageContentBlock
  hasToolBlocks : Bool
  timestamp : String
deriving DecidableEq

/-- ClaudeSessionInfo of the source. -/
structure ClaudeSessionInfo where
  sessionId : String
  projectPath : String
  projectName : String
  cwd : String
  gitBranch : String
  version : String
  preview : String
  userMessageCount : Nat
  assistantMessageCount : Nat
  createdAt : String
  updatedAt : String
  fileSize : Nat
deriving DecidableEq

/-- ParsedSession of the source. -/
structure ParsedSession where
  info : ClaudeSessionInfo
  messages : List ParsedMessage
deriving DecidableEq

/-- One on-disk session file: its directory-entry name, the outcome of
fs.statSync on it, and the outcome of reading and splitting it
(fs.readFileSync, split on newlines, drop blank lines, JSON-decode each
line).  An Except.error outcome models the filesystem call throwing, e.g.
for a file removed after the existence check or a permission failure. -/
structure SessFile where
  name : String
  statResult : Except Unit Stat
  readResult : Except Unit (List (Option JournalEntry))

/-- One entry of the projects root directory. -/
structure ProjectDir where
  name : String
  isDirectory : Bool
  readdirOK : Bool
  files : List SessFile

/-- The projects root (~/.claude/projects): whether fs.existsSync finds it,
whether fs.readdirSync on it succeeds, and its entries. -/
structure ProjectsRoot where
  present : Bool
  readdirOK : Bool
  dirs : List ProjectDir

/-! ## Constants -/

/-- Maximum file size (50 MB) to prevent memory issues with very large
sessions (MAX_FILE_SIZE of the source). -/
def MAX_FILE_SIZE : Nat := 50 * 1024 * 1024

/-- The session-log filename extension. -/
def extJsonl : String := ".jsonl"

/-! ## Path decoder -/

/-- Models the first replace of decodeProjectPath: the anchored regex
substitution turning one leading dash into a slash. -/
def replaceLeadingDash (s : String) : String :=
  match s.data with
  | '-' :: rest => ⟨'/' :: rest⟩
  | l => ⟨l⟩

/-- Models the second replace of decodeProjectPath: the global regex
substitution turning every dash into a slash. -/
def replaceAllDash (s : String) : String :=
  ⟨s.data.map (fun c => if c = '-' then '/' else c)⟩

/-- decodeProjectPath of the source: decode a Claude Code project directory
name back to a filesystem path. -/
def decodeProjectPath (encodedName : String) : String :=
  if strStartsWith encodedName "-" = false then encodedName
  else replaceAllDash (replaceLeadingDash encodedName)

/-! ## Message reconstruction -/

/-- parseUserMessage of the source, with the wall-clock fallback threaded
as `now`. -/
def parseUserMessage (entry : JournalEntry) (now : String) : Option ParsedMessage :=
  match entry.message.bind (fun m => m.content) with
  | none => none
  | some (.str s) =>
    if s = "" then none
    else if jsTrim s = "" then none
    else some { role := "user", content := s,
                contentBlocks := [.text s], hasToolBlocks := false,
                timestamp := jsOr entry.timestamp now }
  | some (.arr blocks) =>
    let text := String.intercalate "\n"
      ((blocks.filter (fun b => b.btype = "text")).map (fun b => (b.text).getD ""))
    if jsTrim text = "" then none
    else some { role := "user", content := text,
                contentBlocks := [.text text], hasToolBlocks := false,
                timestamp := jsOr entry.timestamp now }
  | some .other => none

/-- Normalization of a tool_result block's content: a plain string is kept,
a fragment list is newline-joined over its text-tagged fragments, anything
else becomes the empty string. -/
def toolResultContent (bc : Option (String ⊕ List ContentBlock)) : String :=
  match bc with
  | some (.inl s) => s
  | some (.inr frags) =>
    String.intercalate "\n"
      ((frags.filter (fun c => c.btype = "text")).map (fun c => (c.text).getD ""))
  | none => ""

/-- One step of the content-block loop of parseAssistantMessage.  The
accumulator mirrors the three locals (contentBlocks, textParts,
hasToolBlocks). -/
def assistantBlockStep (acc : List MessageContentBlock × List String × Bool)
    (block : ContentBlock) : List MessageContentBlock × List String × Bool :=
  if block.btype = "text" then
    match block.text with
    | some t =>
      if t = "" then acc
      else (acc.1 ++ [.text t], acc.2.1 ++ [t], acc.2.2)
    | none => acc
  else if block.btype = "tool_use" then
    (acc.1 ++ [.tool_use (block.id.getD "") (block.name.getD "") block.input],
     acc.2.1, true)
  else if block.btype = "tool_result" then
    (acc.1 ++ [.tool_result (block.tool_use_id.getD "")
                (toolResultContent block.bcontent) (block.is_error.getD false)],
     acc.2.1, true)
  else acc

/-- parseAssistantMessage of the source. -/
def parseAssistantMessage (entry : JournalEntry) (now : String) : Option ParsedMessage :=
  match entry.message.bind (fun m => m.content) with
  | some (.arr blocks) =>
    let res := blocks.foldl assistantBlockStep ([], [], false)
    if res.1.length = 0 then none
    else some { role := "assistant",
                content := String.intercalate "\n" res.2.1,
                contentBlocks := res.1,
                hasToolBlocks := res.2.2,
                timestamp := jsOr entry.timestamp now }
  | _ => none

/-! ## Metadata-extraction pass -/

/-- The mutable locals of the metadata-extraction loop. -/
structure MetaAccum where
  cwd : String
  gitBranch : String
  version : String
  preview : String
  createdAt : String
  updatedAt : String
  userMessageCount : Nat
  assistantMessageCount : Nat
deriving DecidableEq

/-- Initial accumulator: all locals empty / zero. -/
def initMeta : MetaAccum :=
  { cwd := "", gitBranch := "", version := "", preview := "",
    createdAt := "", updatedAt := "", userMessageCount := 0,
    assistantMessageCount := 0 }

/-- Models the block: if (entry.timestamp) (if (!createdAt) createdAt = ts;
updatedAt = ts). -/
def tsUpdate (a : MetaAccum) (e : JournalEntry) : MetaAccum :=
  match e.timestamp with
  | some ts =>
    if ts = "" then a
    else { a with createdAt := if a.createdAt = "" then ts else a.createdAt,
                  updatedAt := ts }
  | none => a

/-- Models the first-wins capture if (!cur && v) cur = v. -/
def jsFirstWins (cur : String) (v : Option String) : String :=
  if cur = "" then
    match v with
    | some s => if s = "" then cur else s
    | none => cur
  else cur

/-- The preview text the metadata pass captures from one user entry, if
any: non-empty string content, or the text of the first text-tagged
fragment when non-empty, sliced to 120 characters. -/
def previewCandidate (e : JournalEntry) : Option String :=
  match e.message.bind (fun m => m.content) with
  | some (.str s) => if s = "" then none else some (jsSlice s 120)
  | some (.arr blocks) =>
    match blocks.find? (fun b => b.btype = "text") with
    | some tb =>
      match tb.text with
      | some t => if t = "" then none else some (jsSlice t 120)
      | none => none
    | none => none
  | _ => none

/-- One decoded line of the metadata-extraction loop, shared verbatim by
extractSessionInfo (lines 251-285) and parseClaudeSession (lines 364-405). -/
def metaStepE (a : MetaAccum) (e : JournalEntry) : MetaAccum :=
  let a1 := tsUpdate a e
  if e.etype = "user" then
    { a1 with
      userMessageCount := a1.userMessageCount + 1,
      cwd := jsFirstWins a1.cwd e.cwd,
      gitBranch := jsFirstWins a1.gitBranch e.gitBranch,
      version := jsFirstWins a1.version e.version,
      preview := jsFirstWins a1.preview (previewCandidate e) }
  else if e.etype = "assistant" then
    { a1 with assistantMessageCount := a1.assistantMessageCount + 1 }
  else a1

/-- One raw line: a malformed line (JSON.parse throws) is skipped whole. -/
def metaStepO (a : MetaAccum) : Option JournalEntry → MetaAccum
  | none => a
  | some e => metaStepE a e

/-- The zero-or-one messages the single-pass loop appends for one decoded
line. -/
def entryMessages (now : String) (e : JournalEntry) : List ParsedMessage :=
  if e.etype = "user" then (parseUserMessage e now).toList
  else if e.etype = "assistant" then (parseAssistantMessage e now).toList
  else []

/-- One raw line of the combined metadata+message loop of
parseClaudeSession. -/
def parseStepO (now : String) (acc : MetaAccum × List ParsedMessage) :
    Option JournalEntry → MetaAccum × List ParsedMessage
  | none => acc
  | some e => (metaStepE acc.1 e, acc.2 ++ entryMessages now e)

/-! ## File reader guard and session assembly -/

/-- readJsonlLines of the source: stat the file, reject oversize files by
returning null (modelled ok none), otherwise read and split.  Failures of
the two fs calls are not caught here and propagate. -/
def readJsonlLines (f : SessFile) :
    Except Unit (Option (List (Option JournalEntry) × Stat)) :=
  match f.statResult with
  | .error e => .error e
  | .ok st =>
    if st.size > MAX_FILE_SIZE then .ok none
    else
      match f.readResult with
      | .error e => .error e
      | .ok lines => .ok (some (lines, st))

/-- The effective path: cwd from the JSONL when captured (authoritative),
else the decoded folder name. -/
def effPath (pp : String) (a : MetaAccum) : String :=
  if a.cwd = "" then pp else a.cwd

/-- The ClaudeSessionInfo record literal of the source (lines 295-308,
duplicated at lines 414-427). -/
def buildInfo (sid pp : String) (st : Stat) (a : MetaAccum) : ClaudeSessionInfo :=
  { sessionId := sid
    projectPath := effPath pp a
    projectName := basename (effPath pp a)
    cwd := effPath pp a
    gitBranch := a.gitBranch
    version := a.version
    preview := if a.preview = "" then "(no preview)" else a.preview
    userMessageCount := a.userMessageCount
    assistantMessageCount := a.assistantMessageCount
    createdAt := if a.createdAt = "" then st.birthtimeISO else a.createdAt
    updatedAt := if a.updatedAt = "" then st.mtimeISO else a.updatedAt
    fileSize := st.size }

/-- Assembly of ClaudeSessionInfo from the accumulated metadata (the tail
of extractSessionInfo, lines 287-308, duplicated at lines 407-427): empty
sessions yield null. -/
def assembleInfo (sid pp : String) (st : Stat) (a : MetaAccum) :
    Option ClaudeSessionInfo :=
  if a.userMessageCount = 0 ∧ a.assistantMessageCount = 0 then none
  else some (buildInfo sid pp st a)

/-- extractSessionInfo of the source.  Filesystem errors from
readJsonlLines propagate to the caller (which catches them). -/
def extractSessionInfo (f : SessFile) (sid pp : String) :
    Except Unit (Option ClaudeSessionInfo) :=
  match readJsonlLines f with
  | .error e => .error e
  | .ok none => .ok none
  | .ok (some (lines, st)) =>
    if lines.length = 0 then .ok none
    else .ok (assembleInfo sid pp st (lines.foldl metaStepO initMeta))

/-! ## Session enumerator -/

/-- Insertion step for the descending-by-updatedAt sort. -/
def insertByUpdated (x : ClaudeSessionInfo) :
    List ClaudeSessionInfo → List ClaudeSessionInfo
  | [] => [x]
  | y :: ys =>
    if strLeB y.updatedAt x.updatedAt then x :: y :: ys
    else y :: insertByUpdated x ys

/-- Models sessions.sort(...) at line 208: sort descending by updatedAt. -/
def sortByUpdatedDesc : List ClaudeSessionInfo → List ClaudeSessionInfo
  | [] => []
  | x :: xs => insertByUpdated x (sortByUpdatedDesc xs)

/-- Per-file body of the listing loop: extract, push on success, skip the
file on null or on a caught exception (lines 190-197). -/
def listFileStep (pp : String) (acc : List ClaudeSessionInfo) (f : SessFile) :
    List ClaudeSessionInfo :=
  match extractSessionInfo f (replaceFirst f.name extJsonl) pp with
  | .error _ => acc
  | .ok none => acc
  | .ok (some info) => acc ++ [info]

/-- Per-directory body of the listing loop: skip non-directories, skip
directories whose readdir fails (lines 199-201), otherwise fold over the
files with the session-log extension. -/
def listDirStep (acc : List ClaudeSessionInfo) (pd : ProjectDir) :
    List ClaudeSessionInfo :=
  if pd.isDirectory = false then acc
  else if pd.readdirOK = false then acc
  else
    (pd.files.filter (fun f => strEndsWith f.name extJsonl)).foldl
      (listFileStep (decodeProjectPath pd.name)) acc

/-- listClaudeSessions of the source.  A missing root yields the empty
list; a failing root readdir is caught (lines 203-205) leaving the
accumulator empty; every per-file failure is skipped; the result is sorted
most-recent first.  The Except type records that no error ever escapes. -/
def listClaudeSessions (root : ProjectsRoot) :
    Except Unit (List ClaudeSessionInfo) :=
  if root.present = false then .ok []
  else
    .ok (sortByUpdatedDesc
      (if root.readdirOK = false then []
       else root.dirs.foldl listDirStep []))

/-! ## Session materializer -/

/-- The file-location scan of parseClaudeSession (lines 328-345): first
project directory, in order, containing a file named sessionId ++ .jsonl;
fs.existsSync is membership in the directory's contents. -/
def findSession : List ProjectDir → String → Option (SessFile × String)
  | [], _ => none
  | pd :: rest, sid =>
    if pd.isDirectory then
      match pd.files.find? (fun f => f.name = sid ++ extJsonl) with
      | some f => some (f, decodeProjectPath pd.name)
      | none => findSession rest sid
    else findSession rest sid

/-- parseClaudeSession of the source.  The scan over project directories is
guarded by a try/catch (returning null); the subsequent readJsonlLines call
is not, so its filesystem errors escape to the caller. -/
def parseClaudeSession (root : ProjectsRoot) (sid now : String) :
    Except Unit (Option ParsedSession) :=
  if root.present = false then .ok none
  else if root.readdirOK = false then .ok none
  else
    match findSession root.dirs sid with
    | none => .ok none
    | some (f, pp) =>
      match readJsonlLines f with
      | .error e => .error e
      | .ok none => .ok none
      | .ok (some (lines, st)) =>
        if lines.length = 0 then .ok none
        else
          let acc := lines.foldl (parseStepO now) (initMeta, [])
          match assembleInfo sid pp st acc.1 with
          | none => .ok none
          | some info => .ok (some { info := info, messages := acc.2 })

/-! ## Derived views used in statements and proofs -/

/-- The timestamp of an entry when JavaScript-truthy (present and
non-empty), else none. -/
def truthyTs (e : JournalEntry) : Option String :=
  match e.timestamp with
  | some ts => if ts = "" then none else some ts
  | none => none

/-- The in-band (truthy) timestamps of the decoded lines, in file order. -/
def tsList (entries : List JournalEntry) : List String :=
  entries.filterMap truthyTs

/-- Preview candidate restricted to user entries, as the metadata loop
computes it. -/
def userPreviewCandidate (e : JournalEntry) : Option String :=
  if e.etype = "user" then previewCandidate e else none

/-- The lines of a file when reading succeeds, else the empty list (a view
used only to phrase decidable hypotheses about a file's content). -/
def readLinesD (f : SessFile) : List (Option JournalEntry) :=
  match f.readResult with
  | .ok lines => lines
  | .error _ => []

/-- A decoded entry either is not a user/assistant event or carries a
truthy timestamp (the condition under which message reconstruction never
consults the wall clock). -/
def timestamped (e : JournalEntry) : Bool :=
  !(e.etype = "user" || e.etype = "assistant") || (truthyTs e).isSome

/-- The message timestamps of a materialized session (empty for not-found
or error results); an observation used to separate parse results. -/
def msgTimestamps : Except Unit (Option ParsedSession) → List String
  | .ok (some ps) => ps.messages.map (fun m => m.timestamp)
  | _ => []

/-! ## Definitions following the spec's words (for comparison with the
source-derived definitions above) -/

/-- Modelled from the spec's words: the filename with exactly the trailing
session-log extension removed. -/
def stripExt (n : String) : String :=
  ⟨n.data.take (n.data.length - extJsonl.data.length)⟩

/-- Modelled from the spec's words: the extractable text of a user event —
plain text content directly, or the newline-joined concatenation of the
text-tagged fragments for fragment-list content. -/
def specExtractableText (e : JournalEntry) : Option String :=
  match e.message.bind (fun m => m.content) with
  | some (.str s) => some s
  | some (.arr blocks) =>
    some (String.intercalate "\n"
      ((blocks.filter (fun b => b.btype = "text")).map (fun b => (b.text).getD "")))
  | _ => none

/-- Modelled from the spec's words: the first non-empty extractable user
text in file order. -/
def specFirstUserText (lines : List (Option JournalEntry)) : Option String :=
  (lines.filterMap id).findSome? (fun e =>
    if e.etype = "user" then
      match specExtractableText e with
      | some t => if t = "" then none else some t
      | none => none
    else none)

/-- Modelled from the spec's words: the preview the spec predicts — the
first 120 characters of the first non-empty extractable user text. -/
def specPreview (lines : List (Option JournalEntry)) : Option String :=
  (specFirstUserText lines).map (fun t => jsSlice t 120)

/-! ## Concrete sample data -/

/-- Sample timestamp (earlier). -/
def tsA : String := "2026-01-15T10:00:00.000Z"

/-- Sample timestamp (later). -/
def tsB : String := "2026-01-15T10:00:01.000Z"

/-- A user journal entry with the given timestamp and content. -/
def mkUser (ts : Option String) (mc : MsgContent) : JournalEntry :=
  { etype := "user", timestamp := ts, sessionId := some "sid",
    uuid := some "u1", cwd := some "/root/myproject",
    gitBranch := some "main", version := some "2.1.34",
    message := some { content := some mc } }

/-- An assistant journal entry with the given timestamp and blocks. -/
def mkAssistant (ts : Option String) (blocks : List ContentBlock) : JournalEntry :=
  { etype := "assistant", timestamp := ts, sessionId := some "sid",
    uuid := some "u2", cwd := some "/root/myproject",
    gitBranch := none, version := none,
    message := some { content := some (.arr blocks) } }

/-- A lifecycle (queue-operation) journal entry. -/
def mkOther (ts : Option String) : JournalEntry :=
  { etype := "queue-operation", timestamp := ts, sessionId := some "sid",
    uuid := none, cwd := none, gitBranch := none, version := none,
    message := none }

/-- A plain text content block. -/
def textBlock (t : String) : ContentBlock :=
  .mk "text" (some t) none none none none none none

/-- A healthy stat record. -/
def statOK : Stat :=
  { size := 512, birthtimeISO := tsA, mtimeISO := tsA }

/-- Wraps one session file into a one-directory projects root. -/
def singleRoot (f : SessFile) : ProjectsRoot :=
  { present := true, readdirOK := true,
    dirs := [{ name := "-root-myproject", isDirectory := true,
               readdirOK := true, files := [f] }] }

/-- Lines of a well-formed session file: lifecycle marker, then a
timestamped user message, then a timestamped assistant message. -/
def gLines : List (Option JournalEntry) :=
  [some (mkOther (some tsA)),
   some (mkUser (some tsA) (.str "Hello, can you help me?")),
   some (mkAssistant (some tsB) [textBlock "Of course!"])]

/-- A well-formed session file. -/
def gFile : SessFile :=
  { name := "g.jsonl", statResult := .ok statOK, readResult := .ok gLines }

/-- Root holding gFile. -/
def gRoot : ProjectsRoot := singleRoot gFile

/-- The info produced for gFile. -/
def gInfo : ClaudeSessionInfo :=
  { sessionId := "g", projectPath := "/root/myproject",
    projectName := "myproject", cwd := "/root/myproject",
    gitBranch := "main", version := "2.1.34",
    preview := "Hello, can you help me?",
    userMessageCount := 1, assistantMessageCount := 1,
    createdAt := tsA, updatedAt := tsB, fileSize := 512 }

/-- The user message produced for gFile. -/
def gMsgU : ParsedMessage :=
  { role := "user", content := "Hello, can you help me?",
    contentBlocks := [.text "Hello, can you help me?"],
    hasToolBlocks := false, timestamp := tsA }

/-- The assistant message produced for gFile. -/
def gMsgA : ParsedMessage :=
  { role := "assistant", content := "Of course!",
    contentBlocks := [.text "Of course!"],
    hasToolBlocks := false, timestamp := tsB }

/-- The parsed session produced for gFile. -/
def gSession : ParsedSession :=
  { info := gInfo, messages := [gMsgU, gMsgA] }

/-- C1 counterexample file: one decodable user event with no timestamp. -/
def c1File : SessFile :=
  { name := "c1.jsonl", statResult := .ok statOK,
    readResult := .ok [some (mkUser none (.str "Hello"))] }

/-- Root holding c1File. -/
def c1Root : ProjectsRoot := singleRoot c1File

/-- C2 counterexample file: fs.statSync throws (file vanished between the
existence check and the stat). -/
def c2File : SessFile :=
  { name := "c2.jsonl", statResult := .error (), readResult := .error () }

/-- Root holding c2File. -/
def c2Root : ProjectsRoot := singleRoot c2File

/-- C3 counterexample lines: two user events whose in-band timestamps are
out of chronological order. -/
def c3Lines : List (Option JournalEntry) :=
  [some (mkUser (some tsB) (.str "x")),
   some (mkUser (some tsA) (.str "y"))]

/-- C3 counterexample file. -/
def c3File : SessFile :=
  { name := "c3.jsonl", statResult := .ok statOK, readResult := .ok c3Lines }

/-- Root holding c3File. -/
def c3Root : ProjectsRoot := singleRoot c3File

/-- The parsed session produced for c3File: createdAt is the first in-band
timestamp (the later instant), updatedAt the last (the earlier one). -/
def c3Session : ParsedSession :=
  { info := { sessionId := "c3", projectPath := "/root/myproject",
              projectName := "myproject", cwd := "/root/myproject",
              gitBranch := "main", version := "2.1.34", preview := "x",
              userMessageCount := 2, assistantMessageCount := 0,
              createdAt := tsB, updatedAt := tsA, fileSize := 512 },
    messages :=
      [{ role := "user", content := "x", contentBlocks := [.text "x"],
         hasToolBlocks := false, timestamp := tsB },
       { role := "user", content := "y", contentBlocks := [.text "y"],
         hasToolBlocks := false, timestamp := tsA }] }

/-- C4 counterexample lines: one user event whose fragment-list content
has two text fragments. -/
def c4Lines : List (Option JournalEntry) :=
  [some (mkUser (some tsA) (.arr [textBlock "a", textBlock "b"]))]

/-- C4 counterexample file. -/
def c4File : SessFile :=
  { name := "c4.jsonl", statResult := .ok statOK, readResult := .ok c4Lines }

/-- Root holding c4File. -/
def c4Root : ProjectsRoot := singleRoot c4File

/-- The info produced for c4File: the preview comes from the first
text-tagged fragment alone. -/
def c4Info : ClaudeSessionInfo :=
  { sessionId := "c4", projectPath := "/root/myproject",
    projectName := "myproject", cwd := "/root/myproject",
    gitBranch := "main", version := "2.1.34", preview := "a",
    userMessageCount := 1, assistantMessageCount := 0,
    createdAt := tsA, updatedAt := tsA, fileSize := 512 }

/-- C5 sample lines: malformed lines interleaved with valid events. -/
def c5Lines : List (Option JournalEntry) :=
  [none,
   some (mkUser (some tsA) (.str "Hello, can you help me?")),
   none,
   some (mkAssistant (some tsB) [textBlock "Of course!"]),
   none]

/-- C5 sample file. -/
def c5File : SessFile :=
  { name := "c5.jsonl", statResult := .ok statOK, readResult := .ok c5Lines }

/-- Root holding c5File. -/
def c5Root : ProjectsRoot := singleRoot c5File

/-- The parsed session produced for c5File. -/
def c5Session : ParsedSession :=
  { info := { sessionId := "c5", projectPath := "/root/myproject",
              projectName := "myproject", cwd := "/root/myproject",
              gitBranch := "main", version := "2.1.34",
              preview := "Hello, can you help me?",
              userMessageCount := 1, assistantMessageCount := 1,
              createdAt := tsA, updatedAt := tsB, fileSize := 512 },
    messages := [gMsgU, gMsgA] }

/-- C6 sample lines: only a lifecycle event and a malformed line — no
decodable user/assistant event at all. -/
def c6Lines : List (Option JournalEntry) :=
  [some (mkOther (some tsA)), none]

/-- C6 sample file. -/
def c6File : SessFile :=
  { name := "c6.jsonl", statResult := .ok statOK, readResult := .ok c6Lines }

/-- Root holding c6File. -/
def c6Root : ProjectsRoot := singleRoot c6File

/-- C7 sample file: one byte over the 50 MiB ceiling. -/
def c7File : SessFile :=
  { name := "c7.jsonl",
    statResult := .ok { size := MAX_FILE_SIZE + 1, birthtimeISO := tsA, mtimeISO := tsA },
    readResult := .ok [some (mkUser (some tsA) (.str "Hello"))] }

/-- Root holding c7File. -/
def c7Root : ProjectsRoot := singleRoot c7File

/-- C7 sample file at exactly the 50 MiB ceiling. -/
def c7ExactFile : SessFile :=
  { name := "c7x.jsonl",
    statResult := .ok { size := MAX_FILE_SIZE, birthtimeISO := tsA, mtimeISO := tsA },
    readResult := .ok [some (mkUser (some tsA) (.str "Hello"))] }

/-- C8 counterexample file: a filename with an interior occurrence of the
extension substring. -/
def c8File : SessFile :=
  { name := "x.jsonly.jsonl", statResult := .ok statOK,
    readResult := .ok [some (mkUser (some tsA) (.str "Hello"))] }

/-- Root holding c8File. -/
def c8Root : ProjectsRoot := singleRoot c8File

/-- The info produced for c8File: the sessionId drops the first occurrence
of the extension substring, not the trailing extension. -/
def c8Info : ClaudeSessionInfo :=
  { sessionId := "xy.jsonl", projectPath := "/root/myproject",
    projectName := "myproject", cwd := "/root/myproject",
    gitBranch := "main", version := "2.1.34", preview := "Hello",
    userMessageCount := 1, assistantMessageCount := 0,
    createdAt := tsA, updatedAt := tsA, fileSize := 512 }

/-- C10 sample file: one decodable user event whose content is
whitespace-only text. -/
def c10File : SessFile :=
  { name := "c10.jsonl", statResult := .ok statOK,
    readResult := .ok [some (mkUser (some tsA) (.str "   "))] }

/-- Root holding c10File. -/
def c10Root : ProjectsRoot := singleRoot c10File

/-- The session info produced for c10File. -/
def c10Info : ClaudeSessionInfo :=
  { sessionId := "c10", projectPath := "/root/myproject",
    projectName := "myproject", cwd := "/root/myproject",
    gitBranch := "main", version := "2.1.34", preview := "   ",
    userMessageCount := 1, assistantMessageCount := 0,
    createdAt := tsA, updatedAt := tsA, fileSize := 512 }

/-- The parsed session produced for c10File: counted but message-free. -/
def c10Session : ParsedSession :=
  { info := c10Info, messages := [] }

/-! # Helper lemmas -/

theorem truthyTs_ne_empty {e : JournalEntry} {ts : String}
    (h : truthyTs e = some ts) : ts ≠ "" := by
  unfold truthyTs at h
  cases hts : e.timestamp with
  | none => rw [hts] at h; exact absurd h (by simp)
  | some t =>
    rw [hts] at h
    by_cases ht : t = ""
    · simp [ht] at h
    · simp [ht] at h; exact h ▸ ht

theorem jsOr_truthy {e : JournalEntry} {ts : String}
    (h : truthyTs e = some ts) (now : String) : jsOr e.timestamp now = ts := by
  unfold truthyTs at h
  unfold jsOr
  cases hts : e.timestamp with
  | none => rw [hts] at h; exact absurd h (by simp)
  | some t =>
    rw [hts] at h
    by_cases ht : t = "" <;> simp [ht] at h ⊢
    exact h

theorem tsUpdate_eq (a : MetaAccum) (e : JournalEntry) :
    tsUpdate a e =
      match truthyTs e with
      | none => a
      | some ts =>
        { a with createdAt := if a.createdAt = "" then ts else a.createdAt,
                 updatedAt := ts } := by
  unfold tsUpdate truthyTs
  cases e.timestamp with
  | none => rfl
  | some ts => by_cases h : ts = "" <;> simp [h]

theorem tsUpdate_cwd (a : MetaAccum) (e : JournalEntry) :
    (tsUpdate a e).cwd = a.cwd := by
  rw [tsUpdate_eq]; cases truthyTs e <;> rfl

theorem tsUpdate_gitBranch (a : MetaAccum) (e : JournalEntry) :
    (tsUpdate a e).gitBranch = a.gitBranch := by
  rw [tsUpdate_eq]; cases truthyTs e <;> rfl

theorem tsUpdate_version (a : MetaAccum) (e : JournalEntry) :
    (tsUpdate a e).version = a.version := by
  rw [tsUpdate_eq]; cases truthyTs e <;> rfl

theorem tsUpdate_preview (a : MetaAccum) (e : JournalEntry) :
    (tsUpdate a e).preview = a.preview := by
  rw [tsUpdate_eq]; cases truthyTs e <;> rfl

theorem tsUpdate_userCount (a : MetaAccum) (e : JournalEntry) :
    (tsUpdate a e).userMessageCount = a.userMessageCount := by
  rw [tsUpdate_eq]; cases truthyTs e <;> rfl

theorem tsUpdate_assistantCount (a : MetaAccum) (e : JournalEntry) :
    (tsUpdate a e).assistantMessageCount = a.assistantMessageCount := by
  rw [tsUpdate_eq]; cases truthyTs e <;> rfl

theorem tsUpdate_createdAt (a : MetaAccum) (e : JournalEntry) :
    (tsUpdate a e).createdAt =
      match truthyTs e with
      | none => a.createdAt
      | some ts => if a.createdAt = "" then ts else a.createdAt := by
  rw [tsUpdate_eq]; cases truthyTs e <;> rfl

theorem tsUpdate_updatedAt (a : MetaAccum) (e : JournalEntry) :
    (tsUpdate a e).updatedAt =
      match truthyTs e with
      | none => a.updatedAt
      | some ts => ts := by
  rw [tsUpdate_eq]; cases truthyTs e <;> rfl

theorem metaStepE_createdAt (a : MetaAccum) (e : JournalEntry) :
    (metaStepE a e).createdAt = (tsUpdate a e).createdAt := by
  unfold metaStepE
  split
  · rfl
  · split <;> rfl

theorem metaStepE_updatedAt (a : MetaAccum) (e : JournalEntry) :
    (metaStepE a e).updatedAt = (tsUpdate a e).updatedAt := by
  unfold metaStepE
  split
  · rfl
  · split <;> rfl

theorem metaStepE_userCount (a : MetaAccum) (e : JournalEntry) :
    (metaStepE a e).userMessageCount =
      a.userMessageCount + (if e.etype = "user" then 1 else 0) := by
  by_cases hu : e.etype = "user"
  · simp [metaStepE, hu, tsUpdate_userCount]
  · by_cases ha : e.etype = "assistant" <;>
      simp [metaStepE, hu, ha, tsUpdate_userCount]

theorem metaStepE_assistantCount (a : MetaAccum) (e : JournalEntry) :
    (metaStepE a e).assistantMessageCount =
      a.assistantMessageCount + (if e.etype = "assistant" then 1 else 0) := by
  by_cases hu : e.etype = "user"
  · simp [metaStepE, hu, tsUpdate_assistantCount]
  · by_cases ha : e.etype = "assistant" <;>
      simp [metaStepE, hu, ha, tsUpdate_assistantCount]

theorem metaStepE_preview (a : MetaAccum) (e : JournalEntry) :
    (metaStepE a e).preview = jsFirstWins a.preview (userPreviewCandidate e) := by
  by_cases hu : e.etype = "user"
  · simp [metaStepE, hu, tsUpdate_preview, userPreviewCandidate]
  · by_cases ha : e.etype = "assistant" <;>
      simp [metaStepE, hu, ha, tsUpdate_preview, userPreviewCandidate, jsFirstWins]

theorem foldl_metaStepO (lines : List (Option JournalEntry)) (a : MetaAccum) :
    lines.foldl metaStepO a = (lines.filterMap id).foldl metaStepE a := by
  induction lines generalizing a with
  | nil => rfl
  | cons ol rest ih =>
    cases ol <;> simp [metaStepO, ih, List.filterMap_cons]

theorem foldl_parseStepO (now : String) (lines : List (Option JournalEntry))
    (a : MetaAccum) (ms : List ParsedMessage) :
    lines.foldl (parseStepO now) (a, ms) =
      ((lines.filterMap id).foldl metaStepE a,
       ms ++ (lines.filterMap id).flatMap (entryMessages now)) := by
  induction lines generalizing a ms with
  | nil => simp
  | cons ol rest ih =>
    cases ol with
    | none => simp [parseStepO, ih, List.filterMap_cons]
    | some e =>
      simp only [List.foldl_cons, parseStepO, ih, List.filterMap_cons, id]
      simp [List.flatMap_cons]

theorem metaFold_userCount (entries : List JournalEntry) (a : MetaAccum) :
    (entries.foldl metaStepE a).userMessageCount =
      a.userMessageCount + entries.countP (fun e => e.etype = "user") := by
  induction entries generalizing a with
  | nil => simp
  | cons e rest ih =>
    rw [List.foldl_cons, ih, metaStepE_userCount, List.countP_cons]
    by_cases he : e.etype = "user" <;> simp [he] <;> omega

theorem metaFold_assistantCount (entries : List JournalEntry) (a : MetaAccum) :
    (entries.foldl metaStepE a).assistantMessageCount =
      a.assistantMessageCount + entries.countP (fun e => e.etype = "assistant") := by
  induction entries generalizing a with
  | nil => simp
  | cons e rest ih =>
    rw [List.foldl_cons, ih, metaStepE_assistantCount, List.countP_cons]
    by_cases he : e.etype = "assistant" <;> simp [he] <;> omega

theorem tsList_cons (e : JournalEntry) (rest : List JournalEntry) :
    tsList (e :: rest) =
      match truthyTs e with
      | none => tsList rest
      | some ts => ts :: tsList rest := by
  unfold tsList
  rw [List.filterMap_cons]
  cases truthyTs e <;> rfl

theorem metaFold_createdAt (entries : List JournalEntry) (a : MetaAccum) :
    (entries.foldl metaStepE a).createdAt =
      if a.createdAt = "" then (tsList entries).headD "" else a.createdAt := by
  induction entries generalizing a with
  | nil =>
    by_cases h : a.createdAt = "" <;> simp [tsList, h]
  | cons e rest ih =>
    rw [List.foldl_cons, ih, metaStepE_createdAt, tsUpdate_createdAt, tsList_cons]
    cases hts : truthyTs e with
    | none => rfl
    | some ts =>
      have hne : ts ≠ "" := truthyTs_ne_empty hts
      by_cases h : a.createdAt = "" <;> simp [h, hne]

theorem metaFold_updatedAt (entries : List JournalEntry) (a : MetaAccum) :
    (entries.foldl metaStepE a).updatedAt = (tsList entries).getLastD a.updatedAt := by
  induction entries generalizing a with
  | nil => simp [tsList]
  | cons e rest ih =>
    rw [List.foldl_cons, ih, metaStepE_updatedAt, tsUpdate_updatedAt, tsList_cons]
    cases hts : truthyTs e with
    | none => rfl
    | some ts => exact (List.getLastD_cons a.updatedAt ts (tsList rest)).symm

theorem mk_ne_empty {l : List Char} (h : l ≠ []) : (⟨l⟩ : String) ≠ "" := by
  intro hc
  exact h (congrArg String.data hc)

theorem jsSlice_ne_empty {s : String} (h : s ≠ "") : jsSlice s 120 ≠ "" := by
  cases s with
  | mk d =>
    cases d with
    | nil => exact absurd rfl h
    | cons c cs =>
      unfold jsSlice
      apply mk_ne_empty
      simp

theorem previewCandidate_ne_empty {e : JournalEntry} {p : String}
    (h : previewCandidate e = some p) : p ≠ "" := by
  unfold previewCandidate at h
  cases hc : e.message.bind (fun m => m.content) with
  | none => rw [hc] at h; exact absurd h (by simp)
  | some mc =>
    rw [hc] at h
    cases mc with
    | str s =>
      by_cases hs : s = ""
      · simp [hs] at h
      · simp [hs] at h
        exact h ▸ jsSlice_ne_empty hs
    | arr blocks =>
      cases hf : blocks.find? (fun b => b.btype = "text") with
      | none => simp [hf] at h
      | some tb =>
        simp only [hf] at h
        cases htx : tb.text with
        | none => simp [htx] at h
        | some t =>
          rw [htx] at h
          by_cases ht : t = ""
          · simp [ht] at h
          · simp [ht] at h
            exact h ▸ jsSlice_ne_empty ht
    | other => simp at h

theorem userPreviewCandidate_ne_empty {e : JournalEntry} {p : String}
    (h : userPreviewCandidate e = some p) : p ≠ "" := by
  unfold userPreviewCandidate at h
  by_cases hu : e.etype = "user"
  · rw [if_pos hu] at h; exact previewCandidate_ne_empty h
  · rw [if_neg hu] at h; exact absurd h (by simp)

theorem metaFold_preview (entries : List JournalEntry) (a : MetaAccum) :
    (entries.foldl metaStepE a).preview =
      if a.preview = "" then (entries.filterMap userPreviewCandidate).headD ""
      else a.preview := by
  induction entries generalizing a with
  | nil => by_cases h : a.preview = "" <;> simp [h]
  | cons e rest ih =>
    rw [List.foldl_cons, ih, metaStepE_preview, List.filterMap_cons]
    cases hc : userPreviewCandidate e with
    | none => simp [jsFirstWins]
    | some p =>
      have hne : p ≠ "" := userPreviewCandidate_ne_empty hc
      by_cases h : a.preview = "" <;> simp [jsFirstWins, h, hne]

theorem sorted_le_getLastD (t : List String) (a : String)
    (hs : List.Sorted (· ≤ ·) (a :: t)) : a ≤ t.getLastD a := by
  induction t generalizing a with
  | nil => exact le_refl a
  | cons b rest ih =>
    rw [List.getLastD_cons]
    have h1 : a ≤ b := (List.sorted_cons.mp hs).1 b (by simp)
    have h2 : List.Sorted (· ≤ ·) (b :: rest) := (List.sorted_cons.mp hs).2
    exact le_trans h1 (ih b h2)

theorem tsList_mem_ne_empty {entries : List JournalEntry} {x : String}
    (h : x ∈ tsList entries) : x ≠ "" := by
  unfold tsList at h
  obtain ⟨e, _, he⟩ := List.mem_filterMap.mp h
  exact truthyTs_ne_empty he

theorem mem_insertByUpdated {x y : ClaudeSessionInfo} {l : List ClaudeSessionInfo} :
    y ∈ insertByUpdated x l ↔ y = x ∨ y ∈ l := by
  induction l with
  | nil => simp [insertByUpdated]
  | cons z zs ih =>
    unfold insertByUpdated
    by_cases h : strLeB z.updatedAt x.updatedAt = true
    · simp [h, List.mem_cons]
    · simp [h, List.mem_cons, ih]
      tauto

theorem mem_sortByUpdatedDesc {y : ClaudeSessionInfo} {l : List ClaudeSessionInfo} :
    y ∈ sortByUpdatedDesc l ↔ y ∈ l := by
  induction l with
  | nil => simp [sortByUpdatedDesc]
  | cons x xs ih =>
    unfold sortByUpdatedDesc
    rw [mem_insertByUpdated, ih, List.mem_cons]

theorem listFile_fold_mem {pp : String} {files : List SessFile}
    {acc : List ClaudeSessionInfo} {info : ClaudeSessionInfo}
    (h : info ∈ files.foldl (listFileStep pp) acc) :
    info ∈ acc ∨ ∃ f ∈ files,
      extractSessionInfo f (replaceFirst f.name extJsonl) pp = .ok (some info) := by
  induction files generalizing acc with
  | nil => exact Or.inl h
  | cons f fs ih =>
    rw [List.foldl_cons] at h
    rcases ih h with h' | ⟨f', hf', he⟩
    · unfold listFileStep at h'
      cases hi : extractSessionInfo f (replaceFirst f.name extJsonl) pp with
      | error e => rw [hi] at h'; exact Or.inl h'
      | ok oi =>
        rw [hi] at h'
        cases oi with
        | none => exact Or.inl h'
        | some i =>
          rcases List.mem_append.mp h' with ha | hb
          · exact Or.inl ha
          · have : info = i := by simpa using hb
            exact Or.inr ⟨f, by simp, this ▸ hi⟩
    · exact Or.inr ⟨f', List.mem_cons_of_mem f hf', he⟩

theorem listDir_fold_mem {dirs : List ProjectDir}
    {acc : List ClaudeSessionInfo} {info : ClaudeSessionInfo}
    (h : info ∈ dirs.foldl listDirStep acc) :
    info ∈ acc ∨ ∃ pd ∈ dirs, ∃ f ∈ pd.files,
      strEndsWith f.name extJsonl = true ∧
      extractSessionInfo f (replaceFirst f.name extJsonl)
        (decodeProjectPath pd.name) = .ok (some info) := by
  induction dirs generalizing acc with
  | nil => exact Or.inl h
  | cons pd rest ih =>
    rw [List.foldl_cons] at h
    rcases ih h with h' | ⟨pd', h1, h2⟩
    · unfold listDirStep at h'
      by_cases hd : pd.isDirectory = false
      · rw [if_pos hd] at h'; exact Or.inl h'
      · rw [if_neg hd] at h'
        by_cases hro : pd.readdirOK = false
        · rw [if_pos hro] at h'; exact Or.inl h'
        · rw [if_neg hro] at h'
          rcases listFile_fold_mem h' with hacc | ⟨f, hfmem, he⟩
          · exact Or.inl hacc
          · have hf2 := List.mem_filter.mp hfmem
            exact Or.inr ⟨pd, by simp, f, hf2.1, hf2.2, he⟩
    · exact Or.inr ⟨pd', List.mem_cons_of_mem pd h1, h2⟩

theorem listClaudeSessions_mem {root : ProjectsRoot}
    {l : List ClaudeSessionInfo} {info : ClaudeSessionInfo}
    (h : listClaudeSessions root = .ok l) (hm : info ∈ l) :
    ∃ pd ∈ root.dirs, ∃ f ∈ pd.files,
      strEndsWith f.name extJsonl = true ∧
      extractSessionInfo f (replaceFirst f.name extJsonl)
        (decodeProjectPath pd.name) = .ok (some info) := by
  unfold listClaudeSessions at h
  by_cases hp : root.present = false
  · rw [if_pos hp] at h
    injection h with h
    subst h
    simp at hm
  · rw [if_neg hp] at h
    injection h with h
    subst h
    rw [mem_sortByUpdatedDesc] at hm
    by_cases hr : root.readdirOK = false
    · rw [if_pos hr] at hm; simp at hm
    · rw [if_neg hr] at hm
      rcases listDir_fold_mem hm with h0 | h1
      · simp at h0
      · exact h1

theorem findSession_mem {dirs : List ProjectDir} {sid : String}
    {f : SessFile} {pp : String}
    (h : findSession dirs sid = some (f, pp)) :
    ∃ pd ∈ dirs, pd.isDirectory = true ∧ f ∈ pd.files ∧
      f.name = sid ++ extJsonl ∧ pp = decodeProjectPath pd.name := by
  induction dirs with
  | nil => simp [findSession] at h
  | cons pd rest ih =>
    unfold findSession at h
    by_cases hd : pd.isDirectory = true
    · rw [if_pos hd] at h
      cases hf : pd.files.find? (fun g => g.name = sid ++ extJsonl) with
      | none =>
        rw [hf] at h
        rcases ih h with ⟨pd', h1, h2⟩
        exact ⟨pd', List.mem_cons_of_mem pd h1, h2⟩
      | some g =>
        rw [hf] at h
        have hpair : g = f ∧ decodeProjectPath pd.name = pp := by
          have := Option.some.inj h
          exact Prod.mk.inj this
        have hgmem := List.mem_of_find?_eq_some hf
        have hgname : g.name = sid ++ extJsonl := by
          simpa using List.find?_some hf
        exact ⟨pd, by simp, hd, hpair.1 ▸ hgmem, hpair.1 ▸ hgname, hpair.2.symm⟩
    · rw [if_neg hd] at h
      rcases ih h with ⟨pd', h1, h2⟩
      exact ⟨pd', List.mem_cons_of_mem pd h1, h2⟩

theorem assembleInfo_eq_some {sid pp : String} {st : Stat} {a : MetaAccum}
    {i : ClaudeSessionInfo} (h : assembleInfo sid pp st a = some i) :
    ¬(a.userMessageCount = 0 ∧ a.assistantMessageCount = 0) ∧
      i = buildInfo sid pp st a := by
  unfold assembleInfo at h
  by_cases hc : a.userMessageCount = 0 ∧ a.assistantMessageCount = 0
  · simp [hc] at h
  · rw [if_neg hc] at h
    exact ⟨hc, (Option.some.inj h).symm⟩

theorem extract_eq_some {f : SessFile} {sid pp : String} {i : ClaudeSessionInfo}
    (h : extractSessionInfo f sid pp = .ok (some i)) :
    ∃ st lines, f.statResult = .ok st ∧ st.size ≤ MAX_FILE_SIZE ∧
      f.readResult = .ok lines ∧ lines ≠ [] ∧
      assembleInfo sid pp st
        ((lines.filterMap id).foldl metaStepE initMeta) = some i := by
  unfold extractSessionInfo readJsonlLines at h
  cases hst : f.statResult with
  | error e => simp [hst] at h
  | ok st =>
    simp only [hst] at h
    by_cases hsz : st.size > MAX_FILE_SIZE
    · simp [hsz] at h
    · simp only [if_neg hsz] at h
      cases hrd : f.readResult with
      | error e => simp [hrd] at h
      | ok lines =>
        simp only [hrd] at h
        by_cases hlen : lines.length = 0
        · simp [hlen] at h
        · simp only [if_neg hlen] at h
          refine ⟨st, lines, rfl, by omega, rfl, ?_, ?_⟩
          · exact fun hnil => hlen (by simp [hnil])
          · rw [← foldl_metaStepO]
            exact Except.ok.inj h

theorem parse_eq_some {root : ProjectsRoot} {sid now : String} {ps : ParsedSession}
    (h : parseClaudeSession root sid now = .ok (some ps)) :
    ∃ f pp st lines,
      findSession root.dirs sid = some (f, pp) ∧
      f.statResult = .ok st ∧ st.size ≤ MAX_FILE_SIZE ∧
      f.readResult = .ok lines ∧ lines ≠ [] ∧
      assembleInfo sid pp st
        ((lines.filterMap id).foldl metaStepE initMeta) = some ps.info ∧
      ps.messages = (lines.filterMap id).flatMap (entryMessages now) := by
  unfold parseClaudeSession at h
  by_cases hp : root.present = false
  · rw [if_pos hp] at h; exact absurd h (by simp)
  · rw [if_neg hp] at h
    by_cases hr : root.readdirOK = false
    · rw [if_pos hr] at h; exact absurd h (by simp)
    · rw [if_neg hr] at h
      cases hfs : findSession root.dirs sid with
      | none => simp [hfs] at h
      | some fp =>
        obtain ⟨f, pp⟩ := fp
        simp only [hfs] at h
        unfold readJsonlLines at h
        cases hst : f.statResult with
        | error e => simp [hst] at h
        | ok st =>
          simp only [hst] at h
          by_cases hsz : st.size > MAX_FILE_SIZE
          · simp [hsz] at h
          · simp only [if_neg hsz] at h
            cases hrd : f.readResult with
            | error e => simp [hrd] at h
            | ok lines =>
              simp only [hrd] at h
              by_cases hlen : lines.length = 0
              · simp [hlen] at h
              · simp only [if_neg hlen] at h
                rw [foldl_parseStepO] at h
                cases ha : assembleInfo sid pp st
                    ((lines.filterMap id).foldl metaStepE initMeta) with
                | none => simp [ha] at h
                | some info =>
                  simp only [ha] at h
                  have hps := Option.some.inj (Except.ok.inj h)
                  refine ⟨f, pp, st, lines, rfl, hst, by omega, hrd,
                    fun hnil => hlen (by simp [hnil]), ?_, ?_⟩
                  · rw [← hps]; exact ha
                  · rw [← hps]; simp

theorem startsWithL_nil_iff (pat : List Char) : startsWithL pat [] = true ↔ pat = [] := by
  cases pat <;> simp [startsWithL]

theorem replaceFirstL_firstOcc (pat : List Char) :
    ∀ (l : List Char) (k : Nat), firstOccL pat l = some k →
      replaceFirstL pat l = l.take k ++ l.drop (k + pat.length) := by
  intro l
  induction l with
  | nil =>
    intro k h
    unfold firstOccL at h
    by_cases hs : startsWithL pat [] = true
    · rw [if_pos hs] at h
      have hk := Option.some.inj h
      have hpat : pat = [] := (startsWithL_nil_iff pat).mp hs
      subst hpat
      rw [← hk]
      rfl
    · rw [if_neg hs] at h
      exact absurd h (by simp)
  | cons c cs ih =>
    intro k h
    unfold firstOccL at h
    by_cases hs : startsWithL pat (c :: cs) = true
    · rw [if_pos hs] at h
      have hk := Option.some.inj h
      unfold replaceFirstL
      rw [if_pos hs, ← hk]
      simp
    · rw [if_neg hs] at h
      cases hf : firstOccL pat cs with
      | none => rw [hf] at h; simp at h
      | some j =>
        rw [hf] at h
        have hk : j + 1 = k := by simpa using h
        unfold replaceFirstL
        rw [if_neg hs, ih j hf, ← hk]
        have harith : j + 1 + pat.length = (j + pat.length) + 1 := by omega
        rw [harith]
        simp [List.take_succ_cons, List.drop_succ_cons]

theorem strEndsWith_decomp {n pat : String} (h : strEndsWith n pat = true) :
    n.data = n.data.take (n.data.length - pat.data.length) ++ pat.data ∧
      pat.data.length ≤ n.data.length := by
  unfold strEndsWith at h
  rw [Bool.and_eq_true, decide_eq_true_iff, decide_eq_true_iff] at h
  obtain ⟨hlen, hdrop⟩ := h
  refine ⟨?_, hlen⟩
  conv_lhs => rw [← List.take_append_drop (n.data.length - pat.data.length) n.data]
  rw [hdrop]

theorem parseUserMessage_now {e : JournalEntry} {ts : String}
    (h : truthyTs e = some ts) (now1 now2 : String) :
    parseUserMessage e now1 = parseUserMessage e now2 := by
  unfold parseUserMessage
  simp only [jsOr_truthy h]

theorem parseAssistantMessage_now {e : JournalEntry} {ts : String}
    (h : truthyTs e = some ts) (now1 now2 : String) :
    parseAssistantMessage e now1 = parseAssistantMessage e now2 := by
  unfold parseAssistantMessage
  simp only [jsOr_truthy h]

theorem entryMessages_now {e : JournalEntry} (h : timestamped e = true)
    (now1 now2 : String) : entryMessages now1 e = entryMessages now2 e := by
  unfold timestamped at h
  by_cases hu : e.etype = "user"
  · have hsome : (truthyTs e).isSome = true := by simpa [hu] using h
    obtain ⟨ts, hts⟩ := Option.isSome_iff_exists.mp hsome
    unfold entryMessages
    rw [if_pos hu, if_pos hu, parseUserMessage_now hts now1 now2]
  · by_cases ha : e.etype = "assistant"
    · have hsome : (truthyTs e).isSome = true := by simpa [hu, ha] using h
      obtain ⟨ts, hts⟩ := Option.isSome_iff_exists.mp hsome
      unfold entryMessages
      rw [if_neg hu, if_neg hu, if_pos ha, if_pos ha,
          parseAssistantMessage_now hts now1 now2]
    · simp [entryMessages, hu, ha]

theorem flatMap_entryMessages_congr (now1 now2 : String) (es : List JournalEntry)
    (h : ∀ e ∈ es, timestamped e = true) :
    es.flatMap (entryMessages now1) = es.flatMap (entryMessages now2) := by
  induction es with
  | nil => rfl
  | cons e rest ih =>
    rw [List.flatMap_cons, List.flatMap_cons,
        entryMessages_now (h e (by simp)) now1 now2,
        ih (fun x hx => h x (by simp [hx]))]

theorem assemble_none_of_nonqualifying {lines : List (Option JournalEntry)}
    (h : ∀ e ∈ lines.filterMap id, e.etype ≠ "user" ∧ e.etype ≠ "assistant")
    (sid pp : String) (st : Stat) :
    assembleInfo sid pp st ((lines.filterMap id).foldl metaStepE initMeta) = none := by
  have hu : ((lines.filterMap id).foldl metaStepE initMeta).userMessageCount = 0 := by
    rw [metaFold_userCount]
    have : (lines.filterMap id).countP (fun e => e.etype = "user") = 0 := by
      rw [List.countP_eq_zero]
      intro e he
      simpa using (h e he).1
    simp [initMeta, this]
  have ha : ((lines.filterMap id).foldl metaStepE initMeta).assistantMessageCount = 0 := by
    rw [metaFold_assistantCount]
    have : (lines.filterMap id).countP (fun e => e.etype = "assistant") = 0 := by
      rw [List.countP_eq_zero]
      intro e he
      simpa using (h e he).2
    simp [initMeta, this]
  unfold assembleInfo
  rw [if_pos ⟨hu, ha⟩]

theorem readJsonlLines_isOk {f : SessFile} (hs : f.statResult.isOk = true)
    (hr : f.readResult.isOk = true) : (readJsonlLines f).isOk = true := by
  unfold readJsonlLines
  cases hst : f.statResult with
  | error e => rw [hst] at hs; simp [Except.isOk, Except.toBool] at hs
  | ok st =>
    by_cases hsz : st.size > MAX_FILE_SIZE
    · simp [hsz, Except.isOk, Except.toBool]
    · cases hrd : f.readResult with
      | error e => rw [hrd] at hr; simp [Except.isOk, Except.toBool] at hr
      | ok lines => simp [hsz, hrd, Except.isOk, Except.toBool]

theorem strLength_data (s : String) : s.length = s.data.length := by
  cases s with
  | mk d => rfl

theorem jsSlice_length_le (s : String) : (jsSlice s 120).length ≤ 120 := by
  cases s with
  | mk d =>
    show (⟨d.take 120⟩ : String).length ≤ 120
    rw [strLength_data]
    simp [List.length_take]

theorem previewCandidate_length {e : JournalEntry} {p : String}
    (h : previewCandidate e = some p) : p.length ≤ 120 := by
  unfold previewCandidate at h
  cases hc : e.message.bind (fun m => m.content) with
  | none => rw [hc] at h; exact absurd h (by simp)
  | some mc =>
    rw [hc] at h
    cases mc with
    | str s =>
      by_cases hs : s = ""
      · simp [hs] at h
      · simp [hs] at h
        exact h ▸ jsSlice_length_le s
    | arr blocks =>
      cases hf : blocks.find? (fun b => b.btype = "text") with
      | none => simp [hf] at h
      | some tb =>
        simp only [hf] at h
        cases htx : tb.text with
        | none => simp [htx] at h
        | some t =>
          rw [htx] at h
          by_cases ht : t = ""
          · simp [ht] at h
          · simp [ht] at h
            exact h ▸ jsSlice_length_le t
    | other => simp at h

theorem userPreviewCandidate_length {e : JournalEntry} {p : String}
    (h : userPreviewCandidate e = some p) : p.length ≤ 120 := by
  unfold userPreviewCandidate at h
  by_cases hu : e.etype = "user"
  · rw [if_pos hu] at h; exact previewCandidate_length h
  · rw [if_neg hu] at h; exact absurd h (by simp)

theorem extract_none_of_nonqualifying {f : SessFile} {sid pp : String}
    (h : ∀ e ∈ (readLinesD f).filterMap id, e.etype ≠ "user" ∧ e.etype ≠ "assistant") :
    ∀ i, extractSessionInfo f sid pp ≠ .ok (some i) := by
  intro i hc
  obtain ⟨st, lines, hst, _, hrd, _, ha⟩ := extract_eq_some hc
  have hld : readLinesD f = lines := by unfold readLinesD; rw [hrd]
  have hn := assemble_none_of_nonqualifying (hld ▸ h) sid pp st
  rw [hn] at ha
  exact Option.noConfusion ha

theorem listFile_fold_nil {pp : String} {files : List SessFile}
    (h : ∀ f ∈ files, ∀ i,
      extractSessionInfo f (replaceFirst f.name extJsonl) pp ≠ .ok (some i)) :
    ∀ acc, files.foldl (listFileStep pp) acc = acc := by
  induction files with
  | nil => intro acc; rfl
  | cons f fs ih =>
    intro acc
    rw [List.foldl_cons]
    have hstep : listFileStep pp acc f = acc := by
      unfold listFileStep
      cases hx : extractSessionInfo f (replaceFirst f.name extJsonl) pp with
      | error e => rfl
      | ok oi =>
        cases oi with
        | none => rfl
        | some i => exact absurd hx (h f (by simp) i)
    rw [hstep]
    exact ih (fun g hg i => h g (by simp [hg]) i) acc

theorem listDir_fold_nil {dirs : List ProjectDir}
    (h : ∀ pd ∈ dirs, ∀ f ∈ pd.files, ∀ i,
      extractSessionInfo f (replaceFirst f.name extJsonl)
        (decodeProjectPath pd.name) ≠ .ok (some i)) :
    ∀ acc, dirs.foldl listDirStep acc = acc := by
  induction dirs with
  | nil => intro acc; rfl
  | cons pd rest ih =>
    intro acc
    rw [List.foldl_cons]
    have hstep : listDirStep acc pd = acc := by
      unfold listDirStep
      by_cases hd : pd.isDirectory = false
      · rw [if_pos hd]
      · rw [if_neg hd]
        by_cases hro : pd.readdirOK = false
        · rw [if_pos hro]
        · rw [if_neg hro]
          exact listFile_fold_nil
            (fun f hf i => h pd (by simp) f (List.mem_filter.mp hf).1 i) acc
    rw [hstep]
    exact ih (fun pd' hpd' => h pd' (by simp [hpd'])) acc

theorem readJsonlLines_some_inv {f : SessFile}
    {lines : List (Option JournalEntry)} {st : Stat}
    (h : readJsonlLines f = .ok (some (lines, st))) :
    f.statResult = .ok st ∧ ¬ st.size > MAX_FILE_SIZE ∧
      f.readResult = .ok lines := by
  unfold readJsonlLines at h
  cases hst : f.statResult with
  | error e => simp [hst] at h
  | ok st' =>
    simp only [hst] at h
    by_cases hsz : st'.size > MAX_FILE_SIZE
    · simp [hsz] at h
    · simp only [if_neg hsz] at h
      cases hrd : f.readResult with
      | error e => simp [hrd] at h
      | ok lines' =>
        simp only [hrd] at h
        have hpair := Option.some.inj (Except.ok.inj h)
        obtain ⟨h1, h2⟩ := Prod.mk.inj hpair
        subst h1
        subst h2
        exact ⟨rfl, hsz, rfl⟩

theorem parse_unfold_located {root : ProjectsRoot} {sid : String}
    {f : SessFile} {pp : String} (now : String)
    (hp : ¬ root.present = false) (hr : ¬ root.readdirOK = false)
    (hfs : findSession root.dirs sid = some (f, pp)) :
    parseClaudeSession root sid now =
      match readJsonlLines f with
      | .error e => .error e
      | .ok none => .ok none
      | .ok (some (lines, st)) =>
        if lines.length = 0 then .ok none
        else
          match assembleInfo sid pp st
              ((lines.filterMap id).foldl metaStepE initMeta) with
          | none => .ok none
          | some info =>
            .ok (some { info := info,
                        messages := (lines.filterMap id).flatMap (entryMessages now) }) := by
  unfold parseClaudeSession
  simp only [if_neg hp, if_neg hr, hfs]
  cases hrj : readJsonlLines f with
  | error e => rfl
  | ok r =>
    cases r with
    | none => rfl
    | some pr =>
      obtain ⟨lines, st⟩ := pr
      by_cases hlen : lines.length = 0
      · simp [hlen]
      · simp only [if_neg hlen, foldl_parseStepO]
        cases assembleInfo sid pp st
            ((lines.filterMap id).foldl metaStepE initMeta) with
        | none => rfl
        | some info => simp

/-! # Claim theorems -/

/-- C1 (amended): re-running parseClaudeSession against an unmodified tree
yields identical structured output provided every decodable user/assistant
event carries a non-empty timestamp; an event lacking one receives the
wall-clock time of the call as its message timestamp, so without that
proviso the two runs can differ. -/
theorem C1_idempotent_amended :
    ∀ (root : ProjectsRoot) (sid now1 now2 : String),
      (∀ pd ∈ root.dirs, ∀ f ∈ pd.files,
        ∀ e ∈ (readLinesD f).filterMap id, timestamped e = true) →
      parseClaudeSession root sid now1 = parseClaudeSession root sid now2 := by
  intro root sid now1 now2 hall
  by_cases hp : root.present = false
  · unfold parseClaudeSession
    simp [hp]
  · by_cases hr : root.readdirOK = false
    · unfold parseClaudeSession
      simp [hp, hr]
    · cases hfs : findSession root.dirs sid with
      | none =>
        unfold parseClaudeSession
        simp [hp, hr, hfs]
      | some fp =>
        obtain ⟨f, pp⟩ := fp
        obtain ⟨pd, hpd, -, hfmem, -, -⟩ := findSession_mem hfs
        have hlines := hall pd hpd f hfmem
        rw [parse_unfold_located now1 hp hr hfs, parse_unfold_located now2 hp hr hfs]
        cases hrj : readJsonlLines f with
        | error e => rfl
        | ok r =>
          cases r with
          | none => rfl
          | some pr =>
            obtain ⟨lines, st⟩ := pr
            obtain ⟨-, -, hrd⟩ := readJsonlLines_some_inv hrj
            have hld : readLinesD f = lines := by unfold readLinesD; rw [hrd]
            by_cases hlen : lines.length = 0
            · simp [hlen]
            · simp only [if_neg hlen]
              cases assembleInfo sid pp st
                  ((lines.filterMap id).foldl metaStepE initMeta) with
              | none => rfl
              | some info =>
                rw [flatMap_entryMessages_congr now1 now2 (lines.filterMap id)
                  (fun e he => hlines e (hld ▸ he))]

/-- C1 witness: the amended theorem applied to a fully timestamped file;
the two runs at different wall-clock instants coincide. -/
theorem C1_witness :
    parseClaudeSession gRoot "g" tsA = parseClaudeSession gRoot "g" tsB :=
  C1_idempotent_amended gRoot "g" tsA tsB (by decide)

/-- C1 counterexample: for a file containing a decodable user event with
no timestamp, two runs of parseClaudeSession at different wall-clock
instants produce different output (the message timestamps differ), so the
claim as stated is false. -/
theorem C1_counterexample :
    parseClaudeSession c1Root "c1" tsA ≠ parseClaudeSession c1Root "c1" tsB := by
  intro h
  exact absurd (congrArg msgTimestamps h) (by decide)

/-- C2 (amended): listClaudeSessions never raises — every filesystem
failure degrades to an empty list or a skipped entry; parseClaudeSession
never raises provided fs.statSync and fs.readFileSync succeed on the
session files.  Without that proviso the claim fails: the readJsonlLines
call inside parseClaudeSession sits outside every try/catch, so a file
removed between the existence check and the stat, or a permission
failure, propagates to the caller (see the counterexample). -/
theorem C2_no_raise_amended :
    (∀ root : ProjectsRoot, (listClaudeSessions root).isOk = true) ∧
    (∀ (root : ProjectsRoot) (sid now : String),
      (∀ pd ∈ root.dirs, ∀ f ∈ pd.files,
        f.statResult.isOk = true ∧ f.readResult.isOk = true) →
      (parseClaudeSession root sid now).isOk = true) := by
  constructor
  · intro root
    unfold listClaudeSessions
    by_cases hp : root.present = false <;> simp [hp, Except.isOk, Except.toBool]
  · intro root sid now hall
    by_cases hp : root.present = false
    · unfold parseClaudeSession
      simp [hp, Except.isOk, Except.toBool]
    · by_cases hr : root.readdirOK = false
      · unfold parseClaudeSession
        simp [hp, hr, Except.isOk, Except.toBool]
      · cases hfs : findSession root.dirs sid with
        | none =>
          unfold parseClaudeSession
          simp [hp, hr, hfs, Except.isOk, Except.toBool]
        | some fp =>
          obtain ⟨f, pp⟩ := fp
          obtain ⟨pd, hpd, -, hfmem, -, -⟩ := findSession_mem hfs
          obtain ⟨hsOk, hrOk⟩ := hall pd hpd f hfmem
          rw [parse_unfold_located now hp hr hfs]
          cases hrj : readJsonlLines f with
          | error e =>
            have hok := readJsonlLines_isOk hsOk hrOk
            rw [hrj] at hok
            simp [Except.isOk, Except.toBool] at hok
          | ok r =>
            cases r with
            | none => rfl
            | some pr =>
              obtain ⟨lines, st⟩ := pr
              by_cases hlen : lines.length = 0
              · simp [hlen, Except.isOk, Except.toBool]
              · simp only [if_neg hlen]
                cases assembleInfo sid pp st
                    ((lines.filterMap id).foldl metaStepE initMeta) <;>
                  simp [Except.isOk, Except.toBool]

/-- C2 witness: the amended theorem applied to a root whose files all
stat and read successfully. -/
theorem C2_witness : (parseClaudeSession gRoot "g" tsA).isOk = true :=
  C2_no_raise_amended.2 gRoot "g" tsA (by decide)

/-- C2 counterexample: with the located session file's statSync throwing
(file removed between the existence check and the read), parseClaudeSession
propagates the error to the caller instead of degrading to not-found, so
the claim as stated is false. -/
theorem C2_counterexample :
    parseClaudeSession c2Root "c2" tsA = .error () := rfl

theorem C3_core {sid pp : String} {st : Stat}
    {lines : List (Option JournalEntry)} {i : ClaudeSessionInfo}
    (hs : List.Sorted (· ≤ ·) (tsList (lines.filterMap id)))
    (hbm : st.birthtimeISO ≤ st.mtimeISO)
    (ha : assembleInfo sid pp st
      ((lines.filterMap id).foldl metaStepE initMeta) = some i) :
    i.createdAt ≤ i.updatedAt ∧
      (tsList (lines.filterMap id) = [] →
        i.createdAt = st.birthtimeISO ∧ i.updatedAt = st.mtimeISO) := by
  obtain ⟨-, hb⟩ := assembleInfo_eq_some ha
  have hcA : ((lines.filterMap id).foldl metaStepE initMeta).createdAt
      = (tsList (lines.filterMap id)).headD "" := by
    rw [metaFold_createdAt]
    simp [initMeta]
  have hcU : ((lines.filterMap id).foldl metaStepE initMeta).updatedAt
      = (tsList (lines.filterMap id)).getLastD "" := by
    rw [metaFold_updatedAt]
    rfl
  subst hb
  cases hts : tsList (lines.filterMap id) with
  | nil =>
    refine ⟨?_, fun _ => ⟨?_, ?_⟩⟩
    · simp only [buildInfo]
      rw [hcA, hcU, hts]
      simpa using hbm
    · simp only [buildInfo]
      rw [hcA, hts]
      simp
    · simp only [buildInfo]
      rw [hcU, hts]
      simp
  | cons c t =>
    have hcne : c ≠ "" :=
      tsList_mem_ne_empty (x := c) (by rw [hts]; simp)
    have hlastmem : (c :: t).getLastD "" ∈ tsList (lines.filterMap id) := by
      rw [hts, List.getLastD_cons]
      exact List.getLastD_mem_cons t c
    have hlne : (c :: t).getLastD "" ≠ "" := tsList_mem_ne_empty hlastmem
    refine ⟨?_, fun hnil => absurd (hts ▸ hnil) (List.cons_ne_nil c t)⟩
    · simp only [buildInfo]
      rw [hcA, hcU, hts, List.headD_cons, if_neg hcne, if_neg hlne,
          List.getLastD_cons]
      exact sorted_le_getLastD t c (hts ▸ hs)

/-- C3 (amended): createdAt is the first in-band (truthy) timestamp and
updatedAt the last, both falling back to the filesystem birth/modify time
when no line carries one; when the file's in-band timestamps appear in
non-decreasing order and birth time ≤ modify time, every produced info
satisfies createdAt ≤ updatedAt.  Without the ordering proviso the claim
fails (see the counterexample): the code takes first and last timestamps
in file order, which an out-of-order file inverts. -/
theorem C3_createdAt_le_updatedAt_amended :
    (∀ (f : SessFile) (sid pp : String) (st : Stat)
       (lines : List (Option JournalEntry)) (i : ClaudeSessionInfo),
      f.statResult = .ok st → f.readResult = .ok lines →
      List.Sorted (· ≤ ·) (tsList (lines.filterMap id)) →
      st.birthtimeISO ≤ st.mtimeISO →
      extractSessionInfo f sid pp = .ok (some i) →
      i.createdAt ≤ i.updatedAt ∧
        (tsList (lines.filterMap id) = [] →
          i.createdAt = st.birthtimeISO ∧ i.updatedAt = st.mtimeISO)) ∧
    (∀ (root : ProjectsRoot) (sid now : String) (ps : ParsedSession)
       (f : SessFile) (pp : String) (st : Stat)
       (lines : List (Option JournalEntry)),
      findSession root.dirs sid = some (f, pp) →
      f.statResult = .ok st → f.readResult = .ok lines →
      List.Sorted (· ≤ ·) (tsList (lines.filterMap id)) →
      st.birthtimeISO ≤ st.mtimeISO →
      parseClaudeSession root sid now = .ok (some ps) →
      ps.info.createdAt ≤ ps.info.updatedAt ∧
        (tsList (lines.filterMap id) = [] →
          ps.info.createdAt = st.birthtimeISO ∧
          ps.info.updatedAt = st.mtimeISO)) := by
  constructor
  · intro f sid pp st lines i hst hrd hs hbm hext
    obtain ⟨st', lines', hst', -, hrd', -, ha⟩ := extract_eq_some hext
    rw [hst] at hst'
    have h1 := Except.ok.inj hst'
    subst h1
    rw [hrd] at hrd'
    have h2 := Except.ok.inj hrd'
    subst h2
    exact C3_core hs hbm ha
  · intro root sid now ps f pp st lines hfs hst hrd hs hbm h
    obtain ⟨f', pp', st', lines', hfs', hst', -, hrd', -, ha, -⟩ := parse_eq_some h
    rw [hfs] at hfs'
    obtain ⟨hf, hpp⟩ := Prod.mk.inj (Option.some.inj hfs')
    subst hf
    subst hpp
    rw [hst] at hst'
    have h1 := Except.ok.inj hst'
    subst h1
    rw [hrd] at hrd'
    have h2 := Except.ok.inj hrd'
    subst h2
    exact C3_core hs hbm ha

/-- C3 witness: the amended theorem applied to a file with a single
timestamped user event. -/
theorem C3_witness : c10Session.info.createdAt ≤ c10Session.info.updatedAt :=
  (C3_createdAt_le_updatedAt_amended.2 c10Root "c10" tsA c10Session c10File
    "/root/myproject" statOK [some (mkUser (some tsA) (.str "   "))]
    rfl rfl rfl
    (by rw [show tsList ([some (mkUser (some tsA) (.str "   "))].filterMap id)
          = [tsA] from rfl]
        exact List.sorted_singleton tsA)
    (le_refl tsA) rfl).1

/-- C3 counterexample: a file whose two in-band timestamps appear in
decreasing order yields an info with createdAt later than updatedAt, so
the claim as stated is false. -/
theorem C3_counterexample :
    parseClaudeSession c3Root "c3" tsA = .ok (some c3Session) ∧
    ¬ (c3Session.info.createdAt ≤ c3Session.info.updatedAt) := by
  refine ⟨rfl, ?_⟩
  rw [String.le_iff_toList_le]
  decide

theorem C4_preview_core {sid pp : String} {st : Stat}
    {lines : List (Option JournalEntry)} {i : ClaudeSessionInfo}
    (ha : assembleInfo sid pp st
      ((lines.filterMap id).foldl metaStepE initMeta) = some i) :
    i.preview.length ≤ 120 ∧
      i.preview =
        (match ((lines.filterMap id).filterMap userPreviewCandidate).head? with
         | some p => p
         | none => "(no preview)") := by
  obtain ⟨-, hb⟩ := assembleInfo_eq_some ha
  have hprev : ((lines.filterMap id).foldl metaStepE initMeta).preview
      = ((lines.filterMap id).filterMap userPreviewCandidate).headD "" := by
    rw [metaFold_preview]
    simp [initMeta]
  subst hb
  cases hc : (lines.filterMap id).filterMap userPreviewCandidate with
  | nil =>
    constructor
    · simp only [buildInfo]
      rw [hprev, hc]
      simp
      decide
    · simp only [buildInfo]
      rw [hprev, hc]
      simp
  | cons p t =>
    have hpmem : p ∈ (lines.filterMap id).filterMap userPreviewCandidate := by
      rw [hc]
      simp
    obtain ⟨e, -, hcand⟩ := List.mem_filterMap.mp hpmem
    have hpne : p ≠ "" := userPreviewCandidate_ne_empty hcand
    have hplen : p.length ≤ 120 := userPreviewCandidate_length hcand
    constructor
    · simp only [buildInfo]
      rw [hprev, hc, List.headD_cons, if_neg hpne]
      exact hplen
    · simp only [buildInfo]
      rw [hprev, hc, List.headD_cons, if_neg hpne]
      rfl

/-- C4 (amended): the produced preview always has length ≤ 120 and is
first-wins — it equals the head of the candidate sequence taken in file
order, where a user event contributes a candidate only from a non-empty
string content or from the text of its FIRST text-tagged fragment when
non-empty, sliced to 120 characters (not from the newline-joined
concatenation of all text fragments, which is what the claim as stated
predicts — see the counterexample); with no candidate the preview is
"(no preview)". -/
theorem C4_preview_amended :
    (∀ (f : SessFile) (sid pp : String) (st : Stat)
       (lines : List (Option JournalEntry)) (i : ClaudeSessionInfo),
      f.statResult = .ok st → f.readResult = .ok lines →
      extractSessionInfo f sid pp = .ok (some i) →
      i.preview.length ≤ 120 ∧
        i.preview =
          (match ((lines.filterMap id).filterMap userPreviewCandidate).head? with
           | some p => p
           | none => "(no preview)")) ∧
    (∀ (root : ProjectsRoot) (sid now : String) (ps : ParsedSession)
       (f : SessFile) (pp : String) (st : Stat)
       (lines : List (Option JournalEntry)),
      findSession root.dirs sid = some (f, pp) →
      f.statResult = .ok st → f.readResult = .ok lines →
      parseClaudeSession root sid now = .ok (some ps) →
      ps.info.preview.length ≤ 120 ∧
        ps.info.preview =
          (match ((lines.filterMap id).filterMap userPreviewCandidate).head? with
           | some p => p
           | none => "(no preview)")) := by
  constructor
  · intro f sid pp st lines i hst hrd hext
    obtain ⟨st', lines', hst', -, hrd', -, ha⟩ := extract_eq_some hext
    rw [hst] at hst'
    have h1 := Except.ok.inj hst'
    subst h1
    rw [hrd] at hrd'
    have h2 := Except.ok.inj hrd'
    subst h2
    exact C4_preview_core ha
  · intro root sid now ps f pp st lines hfs hst hrd h
    obtain ⟨f', pp', st', lines', hfs', hst', -, hrd', -, ha, -⟩ := parse_eq_some h
    rw [hfs] at hfs'
    obtain ⟨hf, hpp⟩ := Prod.mk.inj (Option.some.inj hfs')
    subst hf
    subst hpp
    rw [hst] at hst'
    have h1 := Except.ok.inj hst'
    subst h1
    rw [hrd] at hrd'
    have h2 := Except.ok.inj hrd'
    subst h2
    exact C4_preview_core ha

/-- C4 witness: the amended theorem applied to the two-fragment file. -/
theorem C4_witness : c4Info.preview.length ≤ 120 :=
  (C4_preview_amended.1 c4File "c4" "/root/myproject" statOK c4Lines c4Info
    rfl rfl rfl).1

/-- C4 counterexample: for a user event whose fragment list holds text
fragments "a" and "b", the spec's reading (newline-joined concatenation)
predicts preview "a\nb", but the code slices only the first text-tagged
fragment and produces "a", so the claim as stated is false. -/
theorem C4_counterexample :
    listClaudeSessions c4Root = .ok [c4Info] ∧
    c4Info.preview = "a" ∧
    specPreview c4Lines = some "a\nb" ∧
    c4Info.preview ≠ (specPreview c4Lines).getD "" :=
  ⟨rfl, rfl, rfl, by decide⟩

/-- C8 (amended): every listed info's sessionId is the filename with the
FIRST occurrence of ".jsonl" removed (JavaScript's replace with a string
pattern); when the first occurrence of ".jsonl" in the filename is the
trailing extension itself, this coincides with removing the trailing
extension and appending the extension recovers the filename (hence the
mapping is injective on such filenames).  For a filename with an interior
occurrence the claim as stated fails — see the counterexample. -/
theorem C8_sessionId_amended :
    (∀ (root : ProjectsRoot) (l : List ClaudeSessionInfo)
       (info : ClaudeSessionInfo),
      listClaudeSessions root = .ok l → info ∈ l →
      ∃ pd ∈ root.dirs, ∃ f ∈ pd.files,
        strEndsWith f.name extJsonl = true ∧
        info.sessionId = replaceFirst f.name extJsonl) ∧
    (∀ n : String,
      strEndsWith n extJsonl = true →
      firstOccL extJsonl.data n.data =
        some (n.data.length - extJsonl.data.length) →
      replaceFirst n extJsonl = stripExt n ∧ stripExt n ++ extJsonl = n) := by
  constructor
  · intro root l info h hm
    obtain ⟨pd, hpd, f, hf, hend, he⟩ := listClaudeSessions_mem h hm
    obtain ⟨st, lines, -, -, -, -, ha⟩ := extract_eq_some he
    obtain ⟨-, hb⟩ := assembleInfo_eq_some ha
    refine ⟨pd, hpd, f, hf, hend, ?_⟩
    rw [hb]
    rfl
  · intro n hend hocc
    obtain ⟨hdecomp, hlen⟩ := strEndsWith_decomp hend
    have hrw := replaceFirstL_firstOcc extJsonl.data n.data _ hocc
    have hk : n.data.length - extJsonl.data.length + extJsonl.data.length
        = n.data.length := by omega
    constructor
    · unfold replaceFirst stripExt
      exact congrArg String.mk (by rw [hrw, hk, List.drop_length, List.append_nil])
    · have hdata : (stripExt n ++ extJsonl).data = n.data := by
        rw [String.data_append]
        show n.data.take _ ++ extJsonl.data = n.data
        exact hdecomp.symm
      exact String.toList_inj.mp hdata

/-- C8 witness: the amended theorem applied to the well-formed filename
"x.jsonl", whose only extension occurrence is the trailing one. -/
theorem C8_witness :
    replaceFirst "x.jsonl" extJsonl = stripExt "x.jsonl" ∧
    stripExt "x.jsonl" ++ extJsonl = "x.jsonl" :=
  C8_sessionId_amended.2 "x.jsonl" (by decide) (by decide)

/-- C8 counterexample: the filename "x.jsonly.jsonl" ends in the
extension, yet the produced sessionId is "xy.jsonl" (first occurrence
removed), not "x.jsonly" (trailing extension removed), so the claim as
stated is false. -/
theorem C8_counterexample :
    listClaudeSessions c8Root = .ok [c8Info] ∧
    c8Info.sessionId = "xy.jsonl" ∧
    stripExt "x.jsonly.jsonl" = "x.jsonly" ∧
    c8Info.sessionId ≠ stripExt "x.jsonly.jsonl" :=
  ⟨rfl, rfl, by decide, by decide⟩

/-- C9: decodeProjectPath returns its input unchanged when the input does
not begin with the escape character '-'; otherwise it replaces the leading
escape and every remaining escape with '/'; the three documented examples
hold.  It is a total function of its input, hence never raises. -/
theorem C9_decodeProjectPath :
    (∀ s, strStartsWith s "-" = false → decodeProjectPath s = s) ∧
    (∀ s, strStartsWith s "-" = true →
      decodeProjectPath s = ⟨s.data.map (fun c => if c = '-' then '/' else c)⟩) ∧
    decodeProjectPath "-root-myproject" = "/root/myproject" ∧
    decodeProjectPath "-Users-john-projects-myapp" = "/Users/john/projects/myapp" ∧
    decodeProjectPath "some-dir" = "some-dir" := by
  refine ⟨?_, ?_, by decide, by decide, by decide⟩
  · intro s h
    unfold decodeProjectPath
    simp [h]
  · intro s h
    unfold decodeProjectPath
    rw [h]
    simp only [if_neg (by simp : ¬ (true = false))]
    obtain ⟨rest, hrest⟩ : ∃ rest, s.data = '-' :: rest := by
      have h2 : startsWithL ['-'] s.data = true := h
      cases hd : s.data with
      | nil => rw [hd] at h2; simp [startsWithL] at h2
      | cons c cs =>
        rw [hd] at h2
        simp [startsWithL] at h2
        exact ⟨cs, by rw [h2]⟩
    have h1 : replaceLeadingDash s = ⟨'/' :: rest⟩ := by
      unfold replaceLeadingDash
      rw [hrest]
      rfl
    rw [h1]
    unfold replaceAllDash
    rw [hrest]
    show (⟨('/' :: rest).map _⟩ : String) = ⟨('-' :: rest).map _⟩
    simp

/-- C9 witness: the theorem applied at concrete inputs. -/
theorem C9_witness :
    decodeProjectPath "some-dir" = "some-dir" ∧
    decodeProjectPath "-a-b" =
      ⟨"-a-b".data.map (fun c => if c = '-' then '/' else c)⟩ :=
  ⟨C9_decodeProjectPath.1 "some-dir" (by decide),
   C9_decodeProjectPath.2.1 "-a-b" (by decide)⟩

/-- C10: parseClaudeSession can return a ParsedSession whose messages list
is empty rather than not-found: for a session file holding one user event
with whitespace-only content, the result counts the event
(userMessageCount + assistantMessageCount > 0) yet messages = [], and
listClaudeSessions still lists the session. -/
theorem C10_message_free_session :
    parseClaudeSession c10Root "c10" tsA = .ok (some c10Session) ∧
    c10Session.messages = [] ∧
    c10Session.info.userMessageCount + c10Session.info.assistantMessageCount > 0 ∧
    listClaudeSessions c10Root = .ok [c10Session.info] :=
  ⟨rfl, rfl, by decide, rfl⟩

/-- C5: for a session file mixing malformed (un-decodable) lines with
valid user/assistant events, all messages produced from the decodable
events appear in the parseClaudeSession result in original file order
(flatMap over the decoded entries), and the malformed lines contribute
nothing: the messages and the whole metadata accumulation (counts,
timestamps, preview) are functions of the decodable entries only. -/
theorem C5_valid_events_survive :
    ∀ (root : ProjectsRoot) (sid now : String) (ps : ParsedSession)
      (f : SessFile) (pp : String) (st : Stat) (lines : List (Option JournalEntry)),
      findSession root.dirs sid = some (f, pp) →
      f.statResult = .ok st → f.readResult = .ok lines →
      parseClaudeSession root sid now = .ok (some ps) →
      ps.messages = (lines.filterMap id).flatMap (entryMessages now) ∧
      assembleInfo sid pp st
        ((lines.filterMap id).foldl metaStepE initMeta) = some ps.info := by
  intro root sid now ps f pp st lines hfs hst hrd h
  obtain ⟨f', pp', st', lines', hfs', hst', _, hrd', _, ha', hm'⟩ := parse_eq_some h
  rw [hfs] at hfs'
  obtain ⟨hf, hpp⟩ := Prod.mk.inj (Option.some.inj hfs')
  subst hf
  subst hpp
  rw [hst] at hst'
  have hstEq := Except.ok.inj hst'
  subst hstEq
  rw [hrd] at hrd'
  have hl := Except.ok.inj hrd'
  subst hl
  exact ⟨hm', ha'⟩

/-- C5 witness: the theorem applied to a concrete file interleaving three
malformed lines with one user and one assistant event. -/
theorem C5_witness :
    c5Session.messages = (c5Lines.filterMap id).flatMap (entryMessages tsA) :=
  (C5_valid_events_survive c5Root "c5" tsA c5Session c5File "/root/myproject"
    statOK c5Lines rfl rfl rfl rfl).1

/-- C6: a session file with no decodable user/assistant line produces no
listing info (extractSessionInfo never returns one), a root whose files
are all such yields an empty listing, and parseClaudeSession returns
not-found for such a located file. -/
theorem C6_nonqualifying_excluded :
    (∀ (f : SessFile) (sid pp : String),
      (∀ e ∈ (readLinesD f).filterMap id, e.etype ≠ "user" ∧ e.etype ≠ "assistant") →
      ∀ i, extractSessionInfo f sid pp ≠ .ok (some i)) ∧
    (∀ root : ProjectsRoot,
      (∀ pd ∈ root.dirs, ∀ f ∈ pd.files,
        ∀ e ∈ (readLinesD f).filterMap id, e.etype ≠ "user" ∧ e.etype ≠ "assistant") →
      listClaudeSessions root = .ok []) ∧
    (∀ (root : ProjectsRoot) (sid now : String) (f : SessFile) (pp : String)
       (st : Stat) (lines : List (Option JournalEntry)),
      findSession root.dirs sid = some (f, pp) →
      f.statResult = .ok st → ¬ st.size > MAX_FILE_SIZE → f.readResult = .ok lines →
      (∀ e ∈ lines.filterMap id, e.etype ≠ "user" ∧ e.etype ≠ "assistant") →
      parseClaudeSession root sid now = .ok none) := by
  refine ⟨?_, ?_, ?_⟩
  · intro f sid pp h i
    exact extract_none_of_nonqualifying h i
  · intro root h
    unfold listClaudeSessions
    by_cases hp : root.present = false
    · rw [if_pos hp]
    · rw [if_neg hp]
      by_cases hr : root.readdirOK = false
      · simp [hr, sortByUpdatedDesc]
      · simp only [if_neg hr]
        rw [listDir_fold_nil
          (fun pd hpd f hf i => extract_none_of_nonqualifying (h pd hpd f hf) i) []]
        rfl
  · intro root sid now f pp st lines hfs hst hsz hrd h
    unfold parseClaudeSession
    by_cases hp : root.present = false
    · simp [hp]
    · by_cases hr : root.readdirOK = false
      · simp [hp, hr]
      · simp only [if_neg hp, if_neg hr, hfs]
        unfold readJsonlLines
        simp only [hst]
        rw [if_neg hsz]
        simp only [hrd]
        by_cases hlen : lines.length = 0
        · simp [hlen]
        · simp only [if_neg hlen, foldl_parseStepO]
          rw [assemble_none_of_nonqualifying h sid pp st]

/-- C6 witness: the theorem applied to a concrete file holding only a
lifecycle marker and a malformed line. -/
theorem C6_witness :
    parseClaudeSession c6Root "c6" tsA = .ok none ∧
    listClaudeSessions c6Root = .ok [] :=
  ⟨C6_nonqualifying_excluded.2.2 c6Root "c6" tsA c6File "/root/myproject"
      statOK c6Lines rfl rfl (by decide) rfl (by decide),
   C6_nonqualifying_excluded.2.1 c6Root (by decide)⟩

/-- C7: every info listClaudeSessions produces originates from a file
whose stated size is at most the 50 MiB ceiling (and reports exactly that
size as fileSize), so an oversize file is omitted from the listing;
parseClaudeSession returns not-found for a located oversize file; a file
of exactly 50 MiB is admitted by the reader guard. -/
theorem C7_size_ceiling :
    (∀ (root : ProjectsRoot) (l : List ClaudeSessionInfo),
      listClaudeSessions root = .ok l →
      ∀ info ∈ l, ∃ pd ∈ root.dirs, ∃ f ∈ pd.files, ∃ st : Stat,
        f.statResult = .ok st ∧ st.size ≤ MAX_FILE_SIZE ∧ info.fileSize = st.size) ∧
    (∀ (root : ProjectsRoot) (sid now : String) (f : SessFile) (pp : String)
       (st : Stat),
      findSession root.dirs sid = some (f, pp) →
      f.statResult = .ok st → st.size > MAX_FILE_SIZE →
      parseClaudeSession root sid now = .ok none) ∧
    (∀ (f : SessFile) (st : Stat) (lines : List (Option JournalEntry)),
      f.statResult = .ok st → st.size = MAX_FILE_SIZE → f.readResult = .ok lines →
      readJsonlLines f = .ok (some (lines, st))) := by
  refine ⟨?_, ?_, ?_⟩
  · intro root l h info hm
    obtain ⟨pd, hpd, f, hf, _, he⟩ := listClaudeSessions_mem h hm
    obtain ⟨st, lines, hst, hsz, hrd, hne, ha⟩ := extract_eq_some he
    obtain ⟨-, hb⟩ := assembleInfo_eq_some ha
    refine ⟨pd, hpd, f, hf, st, hst, hsz, ?_⟩
    rw [hb]
    rfl
  · intro root sid now f pp st hfs hst hsz
    unfold parseClaudeSession
    by_cases hp : root.present = false
    · simp [hp]
    · by_cases hr : root.readdirOK = false
      · simp [hp, hr]
      · simp only [if_neg hp, if_neg hr, hfs]
        unfold readJsonlLines
        simp only [hst]
        simp [hsz]
  · intro f st lines hst hsz hrd
    unfold readJsonlLines
    simp only [hst]
    rw [if_neg (by omega : ¬ st.size > MAX_FILE_SIZE)]
    simp only [hrd]

/-- C7 witness: the theorem applied to a file one byte over the ceiling
and a file of exactly the ceiling size. -/
theorem C7_witness :
    parseClaudeSession c7Root "c7" tsA = .ok none ∧
    readJsonlLines c7ExactFile = .ok (some ([some (mkUser (some tsA) (.str "Hello"))],
      { size := MAX_FILE_SIZE, birthtimeISO := tsA, mtimeISO := tsA })) :=
  ⟨C7_size_ceiling.2.1 c7Root "c7" tsA c7File "/root/myproject" _ rfl rfl (by decide),
   C7_size_ceiling.2.2 c7ExactFile _ _ rfl rfl rfl⟩

end CodePilot
